import Mathlib

/-!
# Verification of the eink-dither image pipeline

Shallow embedding of the second-generation pipeline code of the
`anttir/eink-dither` repository:

* `src/src/lib/dithering.ts` (second document, lines 268-677): palettes,
  Lab-based nearest-color matching with the blue override, the contrast
  pre-pass, and the four error-diffusion kernels dispatched by
  `applyDithering`;
* `src/src/lib/download.ts` (first document, lines 10-58): the BMP encoder
  `imageDataToBmp`; (second document, lines 200-608): `lanczosResample` and
  `scaleImageWithCrop`.

Pixel buffers (`Uint8ClampedArray`) are modelled as total functions
`ℕ → ℕ` holding byte values; every write goes through `u8store`, the
JavaScript `Uint8ClampedArray` conversion (clamp to [0,255], round half to
even).  JavaScript numeric expressions are modelled by exact rational
arithmetic over `ℚ`.

The sRGB→Lab conversion (`rgbToLab`, dithering.ts lines 337-369) and the
Lanczos kernel (`lanczosKernel`, download.ts lines 210-216) are built from
transcendental functions (`Math.pow` with exponent 2.4 and 1/3, `Math.sin`,
`Math.sqrt`) which have no exact rational counterpart; following the
standard treatment the color-distance function and the Lanczos kernel are
taken as *parameters* of the embedding.  Every theorem below is proved for
an arbitrary distance function / kernel function, hence in particular for
the source's Lab distance and Lanczos-3 kernel.  No other part of the code
is abstracted.
-/

/-- A pixel byte buffer: the model of a JavaScript `Uint8ClampedArray`,
index ↦ stored byte value (0..255). -/
abbrev Buffer := ℕ → ℕ

/-- An RGB triple, as stored in the palette tables (`number[]` of length 3). -/
abbrev RGB := ℕ × ℕ × ℕ

/-- Round a rational to the nearest integer, ties to even: the rounding
performed by a `Uint8ClampedArray` element store (ECMA-262
`ToUint8Clamp`). -/
def roundHalfEven (q : ℚ) : ℤ :=
  let f := ⌊q⌋
  if q - f < 1 / 2 then f
  else if 1 / 2 < q - f then f + 1
  else if f % 2 = 0 then f else f + 1

/-- The `Uint8ClampedArray` element-store conversion: clamp to [0, 255],
then round ties-to-even (ECMA-262 `ToUint8Clamp`). -/
def u8store (q : ℚ) : ℕ :=
  (roundHalfEven (min 255 (max 0 q))).toNat

/-- `ImageData`: width, height and the RGBA byte buffer (row-major,
4 bytes per pixel). -/
structure ImageData where
  width : ℕ
  height : ℕ
  data : Buffer

/-- The blue-entry test of the override loop in `findNearestColor`
(dithering.ts line 385): `color[2] > 200 && color[0] < 50 && color[1] < 50`. -/
def isBlueEntry (c : RGB) : Bool :=
  decide (200 < c.2.2) && decide (c.1 < 50) && decide (c.2.1 < 50)

/-- The Lab-distance minimisation loop of `findNearestColor`
(dithering.ts lines 391-403): precompute the distances to the palette
entries, scan with `minDistance = Infinity`, `nearestIdx = 0`, updating on a
strict improvement, and return `palette[nearestIdx]`.  The source computes
`labDistance(rgbToLab(r,g,b), paletteLab[i])` with `paletteLab` precomputed
from the palette (lines 406-409); the composed distance function `dist` is
a parameter of the embedding (see the file header). -/
def nearestStep (acc : WithTop ℚ × ℕ × ℕ) (dv : ℚ) : WithTop ℚ × ℕ × ℕ :=
  if (dv : WithTop ℚ) < acc.1 then ((dv : WithTop ℚ), acc.2.2, acc.2.2 + 1)
  else (acc.1, acc.2.1, acc.2.2 + 1)

/-- See `nearestStep`; the accumulator carries
`(minDistance, nearestIdx, i)`. -/
def nearestLab (dist : RGB → RGB → ℚ) (r g b : ℕ) (palette : List RGB) : RGB :=
  let dists := palette.map (fun c => dist (r, g, b) c)
  let acc := dists.foldl nearestStep ((⊤ : WithTop ℚ), 0, 0)
  palette.getD acc.2.1 (0, 0, 0)

/-- `findNearestColor` (dithering.ts lines 380-404): special handling for
near-blue inputs (`r < 50 && g < 150 && b > 100`) returns the first palette
entry with `color[2] > 200 && color[0] < 50 && color[1] < 50` when present;
otherwise the Lab-distance loop runs. -/
def findNearestColor (dist : RGB → RGB → ℚ) (r g b : ℕ) (palette : List RGB) : RGB :=
  if r < 50 ∧ g < 150 ∧ 100 < b then
    match palette.find? isBlueEntry with
    | some c => c
    | none => nearestLab dist r g b palette
  else nearestLab dist r g b palette

/-- One error-diffusion write (the body of the bounds-checked neighbour
update shared by all four kernels, e.g. the `diffuse` closure of `stucki`,
dithering.ts lines 555-564): if the neighbour `(x+dx, y+dy)` is inside the
image, add `err * weight / divisor` to each of its three color channels,
clamping with `Math.min(255, Math.max(0, _))` and storing through the
clamped array. -/
def diffuseOne (w h : ℕ) (errR errG errB divisor : ℚ) (x y : ℕ)
    (d : Buffer) (o : ℤ × ℤ × ℕ) : Buffer :=
  let nx : ℤ := (x : ℤ) + o.1
  let ny : ℤ := (y : ℤ) + o.2.1
  if 0 ≤ nx ∧ nx < (w : ℤ) ∧ 0 ≤ ny ∧ ny < (h : ℤ) then
    let i := (ny.toNat * w + nx.toNat) * 4
    let d1 := Function.update d i
      (u8store (min 255 (max 0 ((d i : ℚ) + errR * o.2.2 / divisor))))
    let d2 := Function.update d1 (i + 1)
      (u8store (min 255 (max 0 ((d1 (i + 1) : ℚ) + errG * o.2.2 / divisor))))
    Function.update d2 (i + 2)
      (u8store (min 255 (max 0 ((d2 (i + 2) : ℚ) + errB * o.2.2 / divisor))))
  else d

/-- The per-pixel body shared by the four dithering loops (e.g.
dithering.ts lines 429-472 for `floydSteinberg`): read the current RGB,
quantize with `findNearestColor`, write the matched color back, compute the
per-channel error scaled by `strength`, and diffuse it over the kernel's
offset table. -/
def ditherStep (dist : RGB → RGB → ℚ) (palette : List RGB) (strength : ℚ)
    (offsets : List (ℤ × ℤ × ℕ)) (divisor : ℚ) (w h x y : ℕ) (d : Buffer) : Buffer :=
  let idx := (y * w + x) * 4
  let oldR := d idx
  let oldG := d (idx + 1)
  let oldB := d (idx + 2)
  let c := findNearestColor dist oldR oldG oldB palette
  let d3 := Function.update
    (Function.update (Function.update d idx (u8store (c.1 : ℚ)))
      (idx + 1) (u8store (c.2.1 : ℚ)))
    (idx + 2) (u8store (c.2.2 : ℚ))
  let errR : ℚ := ((oldR : ℚ) - (c.1 : ℚ)) * strength
  let errG : ℚ := ((oldG : ℚ) - (c.2.1 : ℚ)) * strength
  let errB : ℚ := ((oldB : ℚ) - (c.2.2 : ℚ)) * strength
  offsets.foldl (diffuseOne w h errR errG errB divisor x y) d3

/-- The raster double loop `for y ... for x ...` shared by the four
dithering functions (dithering.ts lines 428-474 etc.). -/
def ditherPass (dist : RGB → RGB → ℚ) (palette : List RGB) (strength : ℚ)
    (offsets : List (ℤ × ℤ × ℕ)) (divisor : ℚ) (w h : ℕ) (d : Buffer) : Buffer :=
  (List.range h).foldl
    (fun d y =>
      (List.range w).foldl
        (fun d x => ditherStep dist palette strength offsets divisor w h x y d) d)
    d

/-- Floyd-Steinberg offset table (dithering.ts lines 446-472: 7/16 right,
3/16 bottom-left, 5/16 bottom, 1/16 bottom-right; the explicit `if`
conditions of the source are the unrolled in-bounds checks of
`diffuseOne`). -/
def fsOffsets : List (ℤ × ℤ × ℕ) := [(1, 0, 7), (-1, 1, 3), (0, 1, 5), (1, 1, 1)]

/-- Floyd-Steinberg divisor (the literal 16 of dithering.ts lines 449-470). -/
def fsDivisor : ℕ := 16

/-- Atkinson neighbour table (dithering.ts lines 505-512), each neighbour
receiving weight 1. -/
def atkinsonOffsets : List (ℤ × ℤ × ℕ) :=
  [(1, 0, 1), (2, 0, 1), (-1, 1, 1), (0, 1, 1), (1, 1, 1), (0, 2, 1)]

/-- Atkinson divisor: the source divides the error by 8 up front
(dithering.ts lines 501-503, "uses 1/8 for each neighbor (only distributes
6/8 of error)"); `err * strength / 8` then `+ err` per neighbour equals
`err * strength * 1 / 8` per neighbour. -/
def atkinsonDivisor : ℕ := 8

/-- Stucki offset table (dithering.ts lines 566-580). -/
def stuckiOffsets : List (ℤ × ℤ × ℕ) :=
  [(1, 0, 8), (2, 0, 4),
   (-2, 1, 2), (-1, 1, 4), (0, 1, 8), (1, 1, 4), (2, 1, 2),
   (-2, 2, 1), (-1, 2, 2), (0, 2, 4), (1, 2, 2), (2, 2, 1)]

/-- Stucki divisor (dithering.ts line 534). -/
def stuckiDivisor : ℕ := 42

/-- Jarvis-Judice-Ninke offset table (dithering.ts lines 624-638). -/
def jarvisOffsets : List (ℤ × ℤ × ℕ) :=
  [(1, 0, 7), (2, 0, 5),
   (-2, 1, 3), (-1, 1, 5), (0, 1, 7), (1, 1, 5), (2, 1, 3),
   (-2, 2, 1), (-1, 2, 3), (0, 2, 5), (1, 2, 3), (2, 2, 1)]

/-- Jarvis divisor (dithering.ts line 593). -/
def jarvisDivisor : ℕ := 48

/-- `floydSteinberg` (dithering.ts lines 422-477): copy the buffer and run
the raster error-diffusion pass with the Floyd-Steinberg kernel. -/
def floydSteinberg (img : ImageData) (palette : List RGB)
    (dist : RGB → RGB → ℚ) (strength : ℚ) : ImageData :=
  ⟨img.width, img.height,
    ditherPass dist palette strength fsOffsets (fsDivisor : ℚ) img.width img.height img.data⟩

/-- `atkinson` (dithering.ts lines 480-526). -/
def atkinson (img : ImageData) (palette : List RGB)
    (dist : RGB → RGB → ℚ) (strength : ℚ) : ImageData :=
  ⟨img.width, img.height,
    ditherPass dist palette strength atkinsonOffsets (atkinsonDivisor : ℚ)
      img.width img.height img.data⟩

/-- `stucki` (dithering.ts lines 529-585). -/
def stucki (img : ImageData) (palette : List RGB)
    (dist : RGB → RGB → ℚ) (strength : ℚ) : ImageData :=
  ⟨img.width, img.height,
    ditherPass dist palette strength stuckiOffsets (stuckiDivisor : ℚ)
      img.width img.height img.data⟩

/-- `jarvis` (dithering.ts lines 588-643). -/
def jarvis (img : ImageData) (palette : List RGB)
    (dist : RGB → RGB → ℚ) (strength : ℚ) : ImageData :=
  ⟨img.width, img.height,
    ditherPass dist palette strength jarvisOffsets (jarvisDivisor : ℚ)
      img.width img.height img.data⟩

/-- The contrast factor of `applyContrast` (dithering.ts line 413):
`(259 * (contrast * 255 + 255)) / (255 * (259 - contrast * 255))`. -/
def contrastFactor (c : ℚ) : ℚ :=
  (259 * (c * 255 + 255)) / (255 * (259 - c * 255))

/-- One iteration of the `applyContrast` loop (dithering.ts lines 414-418)
for pixel `p` (the source iterates `i` over byte index steps of 4;
`i = p * 4`): each of the three color channels becomes
`Math.min(255, Math.max(0, factor * (channel - 128) + 128))`. -/
def contrastPixel (factor : ℚ) (d : Buffer) (p : ℕ) : Buffer :=
  let i := p * 4
  let d1 := Function.update d i
    (u8store (min 255 (max 0 (factor * ((d i : ℚ) - 128) + 128))))
  let d2 := Function.update d1 (i + 1)
    (u8store (min 255 (max 0 (factor * ((d1 (i + 1) : ℚ) - 128) + 128))))
  Function.update d2 (i + 2)
    (u8store (min 255 (max 0 (factor * ((d2 (i + 2) : ℚ) - 128) + 128))))

/-- `applyContrast` (dithering.ts lines 412-419): apply the contrast
transform to every pixel of a `w*h` buffer. -/
def applyContrast (w h : ℕ) (c : ℚ) (d : Buffer) : Buffer :=
  (List.range (w * h)).foldl (contrastPixel (contrastFactor c)) d

/-- `applyDithering` (dithering.ts lines 646-677): copy the input data,
apply the contrast pre-pass when `contrast ≠ 1.0`, and dispatch on the
algorithm selector; the `default` case of the `switch` falls back to
`floydSteinberg`.  The selector is a plain string so that unknown selectors
can be expressed. -/
def applyDithering (img : ImageData) (algorithm : String) (palette : List RGB)
    (dist : RGB → RGB → ℚ) (strength contrast : ℚ) : ImageData :=
  let data := if contrast ≠ 1 then applyContrast img.width img.height (contrast - 1) img.data
              else img.data
  let processed : ImageData := ⟨img.width, img.height, data⟩
  if algorithm = "floyd-steinberg" then floydSteinberg processed palette dist strength
  else if algorithm = "atkinson" then atkinson processed palette dist strength
  else if algorithm = "stucki" then stucki processed palette dist strength
  else if algorithm = "jarvis" then jarvis processed palette dist strength
  else floydSteinberg processed palette dist strength

/-- The static palette registry `COLOR_PALETTES` (dithering.ts lines
270-331, second generation). -/
def COLOR_PALETTES : List (String × List RGB) :=
  [("spectra-6",
    [(0, 0, 0), (255, 255, 255), (255, 255, 0), (255, 0, 0), (41, 204, 20), (0, 0, 255)]),
   ("spectra-6-ideal",
    [(0, 0, 0), (255, 255, 255), (255, 255, 0), (255, 0, 0), (0, 255, 0), (0, 0, 255)]),
   ("spectra-6-calibrated",
    [(0, 0, 0), (255, 255, 255), (240, 224, 80), (160, 32, 32), (96, 128, 80), (80, 128, 184)]),
   ("bw", [(0, 0, 0), (255, 255, 255)]),
   ("3-color", [(0, 0, 0), (255, 255, 255), (255, 0, 0)]),
   ("4-gray", [(0, 0, 0), (85, 85, 85), (170, 170, 170), (255, 255, 255)])]

/-- `applyDithering` as called by the UI: the palette is looked up in the
static registry by its key (dithering.ts line 653); an unknown key has no
entry (`COLOR_PALETTES[paletteKey]` is `undefined` and the call throws),
modelled by `none`. -/
def applyDitheringByKey (img : ImageData) (algorithm paletteKey : String)
    (dist : RGB → RGB → ℚ) (strength contrast : ℚ) : Option ImageData :=
  (COLOR_PALETTES.lookup paletteKey).map
    (fun palette => applyDithering img algorithm palette dist strength contrast)

/-! ## BMP encoder (download.ts, first document, lines 10-58) -/

/-- Little-endian bytes of a `DataView.setUint16`. -/
def u16le (n : ℕ) : List ℕ := [n % 256, n / 256 % 256]

/-- Little-endian bytes of a `DataView.setUint32`. -/
def u32le (n : ℕ) : List ℕ :=
  [n % 256, n / 256 % 256, n / 256 ^ 2 % 256, n / 256 ^ 3 % 256]

/-- Little-endian bytes of a `DataView.setInt32` (two's complement). -/
def i32le (n : ℤ) : List ℕ := u32le ((n % 2 ^ 32).toNat)

/-- The padded BMP row byte size `Math.ceil((width * 3) / 4) * 4`
(download.ts line 14). -/
def bmpRowSize (w : ℕ) : ℕ := ((w * 3 + 3) / 4) * 4

/-- One encoded pixel of the BMP body (download.ts lines 45-48): channel
order Blue, Green, Red; alpha dropped; `setUint8` stores modulo 256. -/
def bmpPixel (img : ImageData) (x y : ℕ) : List ℕ :=
  [img.data ((y * img.width + x) * 4 + 2) % 256,
   img.data ((y * img.width + x) * 4 + 1) % 256,
   img.data ((y * img.width + x) * 4) % 256]

/-- One encoded BMP row (download.ts lines 44-54): the pixels of row `y`
left to right followed by `rowSize - width * 3` zero padding bytes. -/
def bmpRow (img : ImageData) (y : ℕ) : List ℕ :=
  (List.range img.width).flatMap (fun x => bmpPixel img x y) ++
    List.replicate (bmpRowSize img.width - img.width * 3) 0

/-- The 54 header bytes of `imageDataToBmp` (download.ts lines 21-39):
magic `'B','M'`, little-endian file size, reserved zero, pixel-data offset
54, info-header size 40, width, negative height (top-down), planes 1,
24 bits per pixel, compression 0, image size, 2835 pixels/metre both axes,
zero palette fields. -/
def bmpHeader (img : ImageData) : List ℕ :=
  [0x42, 0x4D] ++
  u32le (54 + bmpRowSize img.width * img.height) ++
  u32le 0 ++
  u32le 54 ++
  u32le 40 ++
  i32le (img.width : ℤ) ++
  i32le (-(img.height : ℤ)) ++
  u16le 1 ++
  u16le 24 ++
  u32le 0 ++
  u32le (bmpRowSize img.width * img.height) ++
  i32le 2835 ++
  i32le 2835 ++
  u32le 0 ++
  u32le 0

/-- `imageDataToBmp` (download.ts lines 10-58): the header followed by the
rows in top-down order. -/
def imageDataToBmp (img : ImageData) : List ℕ :=
  bmpHeader img ++ (List.range img.height).flatMap (bmpRow img)

/-! ## Lanczos resampler and crop/scale
(download.ts, second document, lines 200-608) -/

/-- The source-space coordinate of a destination coordinate
(download.ts lines 245, 273): `srcCoord = (dstCoord + 0.5) * ratio - 0.5`
with `ratio = srcSize / destSize`. -/
def srcCoordQ (srcSize destSize dstCoord : ℕ) : ℚ :=
  ((dstCoord : ℚ) + 1 / 2) * ((srcSize : ℚ) / (destSize : ℚ)) - 1 / 2

/-- `Math.floor(srcCoord)`. -/
def lanczosFloor (srcSize destSize dstCoord : ℕ) : ℤ :=
  ⌊srcCoordQ srcSize destSize dstCoord⌋

/-- The lower end of the gathered sample range before edge clipping
(download.ts line 246 without the `Math.max`): `Math.floor(srcX) - a + 1`
with `a = 3`. -/
def lanczosLo (srcSize destSize dstCoord : ℕ) : ℤ :=
  lanczosFloor srcSize destSize dstCoord - 3 + 1

/-- The upper end of the gathered sample range before edge clipping
(download.ts line 247 without the `Math.min`): `Math.floor(srcX) + a`
with `a = 3`. -/
def lanczosHi (srcSize destSize dstCoord : ℕ) : ℤ :=
  lanczosFloor srcSize destSize dstCoord + 3

/-- The clipped loop start `startX = Math.max(0, Math.floor(srcX) - a + 1)`
(download.ts line 246). -/
def lanczosStart (srcSize destSize dstCoord : ℕ) : ℤ :=
  max 0 (lanczosLo srcSize destSize dstCoord)

/-- The clipped loop end `endX = Math.min(srcWidth - 1, Math.floor(srcX) + a)`
(download.ts line 247). -/
def lanczosEnd (srcSize destSize dstCoord : ℕ) : ℤ :=
  min ((srcSize : ℤ) - 1) (lanczosHi srcSize destSize dstCoord)

/-- The gathered (edge-clipped) source sample indices for one destination
coordinate: the loop `for (let x = startX; x <= endX; x++)`
(download.ts lines 253-258). -/
def axisIndices (srcSize destSize dstCoord : ℕ) : List ℤ :=
  (List.range (lanczosEnd srcSize destSize dstCoord -
      lanczosStart srcSize destSize dstCoord + 1).toNat).map
    (fun k => lanczosStart srcSize destSize dstCoord + k)

/-- The raw (pre-normalization) filter weights along one axis: the kernel
evaluated at `x - srcX` per gathered index (download.ts line 254).  The
Lanczos-3 kernel function is the parameter `k` (see the file header). -/
def axisWeightsRaw (k : ℚ → ℚ) (srcSize destSize dstCoord : ℕ) : List ℚ :=
  (axisIndices srcSize destSize dstCoord).map
    (fun x => k ((x : ℚ) - srcCoordQ srcSize destSize dstCoord))

/-- The normalization step `weights[i] /= weightSum` (download.ts lines
260-263): divide every weight by the pre-normalization sum. -/
def normalizeWeights (ws : List ℚ) : List ℚ := ws.map (fun w => w / ws.sum)

/-- The normalized per-axis weights used by the resampling accumulation. -/
def axisWeights (k : ℚ → ℚ) (srcSize destSize dstCoord : ℕ) : List ℚ :=
  normalizeWeights (axisWeightsRaw k srcSize destSize dstCoord)

/-- The accumulated value of one destination channel (download.ts lines
306-323): the double sum over the gathered y and x samples, each source
byte weighted by `xWeight * yWeight`. -/
def lanczosChannel (k : ℚ → ℚ) (src : ImageData) (destW destH destX destY ch : ℕ) : ℚ :=
  ((axisIndices src.height destH destY).zip (axisWeights k src.height destH destY)).foldl
    (fun acc sy =>
      ((axisIndices src.width destW destX).zip (axisWeights k src.width destW destX)).foldl
        (fun acc sx =>
          acc + (src.data ((sy.1.toNat * src.width + sx.1.toNat) * 4 + ch) : ℚ) *
            (sx.2 * sy.2))
        acc)
    0

/-- `lanczosResample` (download.ts lines 224-334): `new ImageData(destWidth,
destHeight)` throws when either destination dimension is zero (modelled by
`none`); otherwise every destination byte is the rounded, clamped
accumulated channel value `Math.max(0, Math.min(255, Math.round(v)))`
(download.ts lines 326-329). -/
def lanczosResample (k : ℚ → ℚ) (src : ImageData) (destW destH : ℕ) : Option ImageData :=
  if destW = 0 ∨ destH = 0 then none
  else some ⟨destW, destH, fun i =>
    let p := i / 4
    let ch := i % 4
    let destX := p % destW
    let destY := p / destW
    (max 0 (min 255 (⌊lanczosChannel k src destW destH destX destY ch + 1 / 2⌋))).toNat⟩

/-- `Math.round` over the rationals: round half towards positive
infinity. -/
def jround (q : ℚ) : ℤ := ⌊q + 1 / 2⌋

/-- The two crop modes of `scaleImageWithCrop` (download.ts line 492). -/
inductive CropMode where
  | fit : CropMode
  | fill : CropMode
deriving DecidableEq

/-- A canvas filled with an RGB background color at full alpha:
`fillStyle = backgroundColor; fillRect(0, 0, w, h)` (download.ts lines
600-602). -/
def filledCanvas (w h : ℕ) (bg : RGB) : ImageData :=
  ⟨w, h, fun i =>
    if i % 4 = 0 then bg.1 % 256
    else if i % 4 = 1 then bg.2.1 % 256
    else if i % 4 = 2 then bg.2.2 % 256
    else 255⟩

/-- `ctx.putImageData(img, dx, dy)` (download.ts line 605): copy the
source rectangle onto the canvas without blending, clipped to the canvas
bounds. -/
def putImageData (cv img : ImageData) (dx dy : ℤ) : ImageData :=
  ⟨cv.width, cv.height, fun i =>
    let p := i / 4
    let ch := i % 4
    let cx : ℤ := (p % cv.width : ℕ)
    let cy : ℤ := (p / cv.width : ℕ)
    if p < cv.width * cv.height ∧
        dx ≤ cx ∧ cx < dx + (img.width : ℤ) ∧ dy ≤ cy ∧ cy < dy + (img.height : ℤ) then
      img.data (((cy - dy).toNat * img.width + (cx - dx).toNat) * 4 + ch)
    else cv.data i⟩

/-- `scaleImageWithCrop` (download.ts lines 504-608).  The abstract
parameter `k` is the Lanczos kernel function; `smoothPix` stands for the
pixel contents produced by the browser's built-in `drawImage` smoothing
path taken when `scaleFactor ≥ 0.9` (download.ts lines 575-589) — its
contents are outside the model but its canvas dimensions are not.
`getImageData` with a zero-sized rectangle throws (`IndexSizeError`),
and `new ImageData` with a zero dimension inside `lanczosResample`
throws; both are modelled by `none`. -/
def scaleImageWithCrop (src : ImageData) (targetWidth targetHeight : ℕ)
    (bg : RGB) (cropMode : CropMode) (cropOffset : ℚ × ℚ)
    (k : ℚ → ℚ) (smoothPix : Buffer) : Option ImageData :=
  if src.width = 0 ∨ src.height = 0 then none
  else
    let sourceRatioQ : ℚ := (src.width : ℚ) / (src.height : ℚ)
    let targetRatioQ : ℚ := (targetWidth : ℚ) / (targetHeight : ℚ)
    let dims : ℕ × ℕ × ℤ × ℤ :=
      if cropMode = CropMode.fill then
        let sw : ℕ := if targetRatioQ < sourceRatioQ
          then (jround ((targetHeight : ℚ) * sourceRatioQ)).toNat else targetWidth
        let sh : ℕ := if targetRatioQ < sourceRatioQ
          then targetHeight else (jround ((targetWidth : ℚ) / sourceRatioQ)).toNat
        let maxOffX : ℚ := ((sw : ℚ) - (targetWidth : ℚ)) / 2
        let maxOffY : ℚ := ((sh : ℚ) - (targetHeight : ℚ)) / 2
        (sw, sh, jround (-maxOffX - cropOffset.1 * maxOffX),
          jround (-maxOffY - cropOffset.2 * maxOffY))
      else
        let sw : ℕ := if targetRatioQ < sourceRatioQ
          then targetWidth else (jround ((targetHeight : ℚ) * sourceRatioQ)).toNat
        let sh : ℕ := if targetRatioQ < sourceRatioQ
          then (jround ((targetWidth : ℚ) / sourceRatioQ)).toNat else targetHeight
        (sw, sh, jround (((targetWidth : ℚ) - (sw : ℚ)) / 2),
          jround (((targetHeight : ℚ) - (sh : ℚ)) / 2))
    let scaledW := dims.1
    let scaledH := dims.2.1
    let scaleFactor : ℚ :=
      min ((scaledW : ℚ) / (src.width : ℚ)) ((scaledH : ℚ) / (src.height : ℚ))
    let scaled : Option ImageData :=
      if scaleFactor < 9 / 10 then lanczosResample k src scaledW scaledH
      else if scaledW = 0 ∨ scaledH = 0 then none
      else some ⟨scaledW, scaledH, smoothPix⟩
    match scaled with
    | none => none
    | some simg =>
      if targetWidth = 0 ∨ targetHeight = 0 then none
      else some (putImageData (filledCanvas targetWidth targetHeight bg) simg
        dims.2.2.1 dims.2.2.2)

/-! ## Heap-level model of `applyDithering`
(for the input-buffer preservation property)

The source mutates pixel arrays in place; each dithering call first makes a
fresh copy of the caller's array (`new Uint8ClampedArray(imageData.data)`,
dithering.ts line 656 and again at line 423 inside each algorithm) and all
subsequent writes target that copy.  To state that the caller's buffer is
untouched we model the store explicitly: a heap is a list of buffers,
allocation appends, and every in-place write is a `List.set` at the index
of the buffer being mutated. -/

/-- The all-zero buffer (the `getD` default; never actually reached in the
theorems, which index inside the heap). -/
def zeroBuf : Buffer := fun _ => 0

/-- Run an in-place loop over buffer `j` of the heap: each iteration reads
buffer `j`, applies the per-element step, and writes buffer `j` back. -/
def heapRun (j : ℕ) (step : Buffer → α → Buffer) (l : List α)
    (hp : List Buffer) : List Buffer :=
  l.foldl (fun hp a => hp.set j (step (hp.getD j zeroBuf) a)) hp

/-- The raster position list of the dithering double loop, row-major. -/
def rasterPositions (w h : ℕ) : List (ℕ × ℕ) :=
  (List.range h).flatMap (fun y => (List.range w).map (fun x => (x, y)))

/-- The kernel table selected by `applyDithering`'s `switch` (dithering.ts
lines 665-676), the `default` case selecting Floyd-Steinberg. -/
def selectKernel (algorithm : String) : List (ℤ × ℤ × ℕ) × ℕ :=
  if algorithm = "floyd-steinberg" then (fsOffsets, fsDivisor)
  else if algorithm = "atkinson" then (atkinsonOffsets, atkinsonDivisor)
  else if algorithm = "stucki" then (stuckiOffsets, stuckiDivisor)
  else if algorithm = "jarvis" then (jarvisOffsets, jarvisDivisor)
  else (fsOffsets, fsDivisor)

/-- Heap-level `applyDithering`: the input buffer lives at heap index
`idx`; line 656's copy allocates a fresh buffer, the contrast loop mutates
only that fresh buffer, the selected algorithm's own copy (line 423 etc.)
allocates again and the raster pass mutates only that second fresh buffer,
which is returned (as the data of the `new ImageData`).  Returns the final
heap and the heap index of the result buffer. -/
def applyDitheringHeap (hp : List Buffer) (idx : ℕ) (algorithm : String)
    (palette : List RGB) (dist : RGB → RGB → ℚ) (strength contrast : ℚ)
    (w h : ℕ) : List Buffer × ℕ :=
  let j₁ := hp.length
  let hp₁ := hp ++ [hp.getD idx zeroBuf]
  let hp₂ := if contrast ≠ 1 then
      heapRun j₁ (contrastPixel (contrastFactor (contrast - 1))) (List.range (w * h)) hp₁
    else hp₁
  let j₂ := hp₂.length
  let hp₃ := hp₂ ++ [hp₂.getD j₁ zeroBuf]
  let ker := selectKernel algorithm
  let hp₄ := heapRun j₂
    (fun d p => ditherStep dist palette strength ker.1 (ker.2 : ℚ) w h p.1 p.2 d)
    (rasterPositions w h) hp₃
  (hp₄, j₂)

/-! ## Basic lemmas about the byte store and nearest-color matching -/

theorem u8store_natCast (n : ℕ) (hn : n ≤ 255) : u8store (n : ℚ) = n := by
  have h0 : max 0 (n : ℚ) = (n : ℚ) := max_eq_right (by positivity)
  have h1 : min 255 (n : ℚ) = (n : ℚ) := min_eq_right (by exact_mod_cast hn)
  have h2 : roundHalfEven (n : ℚ) = (n : ℤ) := by
    unfold roundHalfEven
    have hf : ⌊(n : ℚ)⌋ = (n : ℤ) := Int.floor_natCast n
    simp [hf]
  simp [u8store, h0, h1, h2]

theorem nearestStep_snd (acc : WithTop ℚ × ℕ × ℕ) (dv : ℚ) :
    (nearestStep acc dv).2.2 = acc.2.2 + 1 := by
  unfold nearestStep
  split <;> rfl

theorem nearestFold_aux (l : List ℚ) :
    ∀ (m : WithTop ℚ) (b i : ℕ), b < i →
      (l.foldl nearestStep (m, b, i)).2.1 < (l.foldl nearestStep (m, b, i)).2.2 := by
  induction l with
  | nil => intro m b i hbi; simpa using hbi
  | cons d t ih =>
    intro m b i hbi
    simp only [List.foldl_cons]
    have hcases : nearestStep (m, b, i) d = ((d : WithTop ℚ), i, i + 1) ∨
        nearestStep (m, b, i) d = (m, b, i + 1) := by
      unfold nearestStep
      split
      · left; rfl
      · right; rfl
    rcases hcases with h | h
    · rw [h]; exact ih (d : WithTop ℚ) i (i + 1) (Nat.lt_succ_self i)
    · rw [h]; exact ih m b (i + 1) (Nat.lt_succ_of_lt hbi)

theorem nearestFold_len (l : List ℚ) :
    ∀ (m : WithTop ℚ) (b i : ℕ),
      (l.foldl nearestStep (m, b, i)).2.2 = i + l.length := by
  induction l with
  | nil => intro m b i; simp
  | cons d t ih =>
    intro m b i
    simp only [List.foldl_cons]
    have hcases : nearestStep (m, b, i) d = ((d : WithTop ℚ), i, i + 1) ∨
        nearestStep (m, b, i) d = (m, b, i + 1) := by
      unfold nearestStep
      split
      · left; rfl
      · right; rfl
    rcases hcases with h | h <;> rw [h] <;> rw [ih] <;>
      simp [List.length_cons] <;> omega

theorem nearestFold_lt_length (l : List ℚ) (hl : l ≠ []) :
    (l.foldl nearestStep ((⊤ : WithTop ℚ), 0, 0)).2.1 < l.length := by
  cases l with
  | nil => exact absurd rfl hl
  | cons d t =>
    simp only [List.foldl_cons]
    have hstep : nearestStep ((⊤ : WithTop ℚ), 0, 0) d = ((d : WithTop ℚ), 0, 1) := by
      unfold nearestStep
      simp [WithTop.coe_lt_top]
    rw [hstep]
    have h1 := nearestFold_aux t (d : WithTop ℚ) 0 1 Nat.zero_lt_one
    have h2 := nearestFold_len t (d : WithTop ℚ) 0 1
    rw [h2] at h1
    simpa [List.length_cons, Nat.add_comm] using h1

theorem nearestLab_mem (dist : RGB → RGB → ℚ) (r g b : ℕ) (palette : List RGB)
    (hpal : palette ≠ []) : nearestLab dist r g b palette ∈ palette := by
  unfold nearestLab
  have hlen : (palette.map (fun c => dist (r, g, b) c)).length = palette.length :=
    List.length_map _ _
  have hne : palette.map (fun c => dist (r, g, b) c) ≠ [] := by
    simpa [List.map_eq_nil_iff] using hpal
  have hlt := nearestFold_lt_length (palette.map (fun c => dist (r, g, b) c)) hne
  rw [hlen] at hlt
  rw [List.getD_eq_getElem?_getD, List.getElem?_eq_getElem hlt]
  exact List.getElem_mem hlt

theorem findNearestColor_mem (dist : RGB → RGB → ℚ) (r g b : ℕ) (palette : List RGB)
    (hpal : palette ≠ []) : findNearestColor dist r g b palette ∈ palette := by
  unfold findNearestColor
  split
  · cases hfind : palette.find? isBlueEntry with
    | none => exact nearestLab_mem dist r g b palette hpal
    | some c => exact List.mem_of_find?_eq_some hfind
  · exact nearestLab_mem dist r g b palette hpal

/-! ## Write locality of the diffusion step

Every kernel offset of the source has `dy ≥ 0` and, when `dy = 0`,
`dx > 0`; hence each diffusion write targets a pixel strictly after the
current one in raster order, and the quantized value written at the
current pixel is never overwritten. -/

/-- Causality of one kernel offset: row-ahead, or strictly to the right
within the current row. -/
def CausalOffset (o : ℤ × ℤ × ℕ) : Prop := 0 ≤ o.2.1 ∧ (o.2.1 = 0 → 0 < o.1)

instance (o : ℤ × ℤ × ℕ) : Decidable (CausalOffset o) := by
  unfold CausalOffset; infer_instance

theorem diffuseOne_target_gt (w h : ℕ) (x y : ℕ) (o : ℤ × ℤ × ℕ)
    (ho : CausalOffset o) (hx : x < w)
    (hb : 0 ≤ (x : ℤ) + o.1 ∧ (x : ℤ) + o.1 < (w : ℤ) ∧
      0 ≤ (y : ℤ) + o.2.1 ∧ (y : ℤ) + o.2.1 < (h : ℤ)) :
    y * w + x < ((y : ℤ) + o.2.1).toNat * w + ((x : ℤ) + o.1).toNat := by
  obtain ⟨hge, himp⟩ := ho
  obtain ⟨hnx0, hnxw, hny0, hnyh⟩ := hb
  rcases Nat.eq_zero_or_pos o.2.1.toNat with hdy | hdy
  · -- dy = 0 (as an integer, given 0 ≤ dy)
    have hdy0 : o.2.1 = 0 := by omega
    have hdx : 0 < o.1 := himp hdy0
    have hy' : ((y : ℤ) + o.2.1).toNat = y := by omega
    have hx' : x < ((x : ℤ) + o.1).toNat := by omega
    rw [hy']
    omega
  · -- dy ≥ 1
    have hy' : y + 1 ≤ ((y : ℤ) + o.2.1).toNat := by omega
    have : (y + 1) * w ≤ ((y : ℤ) + o.2.1).toNat * w :=
      Nat.mul_le_mul_right w hy'
    have hyw : y * w + w ≤ ((y : ℤ) + o.2.1).toNat * w := by
      rw [Nat.succ_mul] at this; exact this
    omega

theorem diffuseOne_prev (w h : ℕ) (eR eG eB dv : ℚ) (x y : ℕ) (d : Buffer)
    (o : ℤ × ℤ × ℕ) (ho : CausalOffset o) (hx : x < w)
    (i : ℕ) (hi : i < (y * w + x) * 4 + 4) :
    diffuseOne w h eR eG eB dv x y d o i = d i := by
  unfold diffuseOne
  split
  · next hb =>
    have hq := diffuseOne_target_gt w h x y o ho hx hb
    have h0 : i ≠ (((y : ℤ) + o.2.1).toNat * w + ((x : ℤ) + o.1).toNat) * 4 := by omega
    have h1 : i ≠ (((y : ℤ) + o.2.1).toNat * w + ((x : ℤ) + o.1).toNat) * 4 + 1 := by omega
    have h2 : i ≠ (((y : ℤ) + o.2.1).toNat * w + ((x : ℤ) + o.1).toNat) * 4 + 2 := by omega
    rw [Function.update_noteq h2, Function.update_noteq h1, Function.update_noteq h0]
  · rfl

theorem foldl_diffuseOne_prev (offs : List (ℤ × ℤ × ℕ))
    (hoffs : ∀ o ∈ offs, CausalOffset o) (w h : ℕ) (eR eG eB dv : ℚ) (x y : ℕ)
    (hx : x < w) :
    ∀ (d : Buffer) (i : ℕ), i < (y * w + x) * 4 + 4 →
      (offs.foldl (diffuseOne w h eR eG eB dv x y) d) i = d i := by
  induction offs with
  | nil => intro d i _; rfl
  | cons o t ih =>
    intro d i hi
    simp only [List.foldl_cons]
    rw [ih (fun o ho => hoffs o (List.mem_cons_of_mem _ ho)) _ i hi]
    exact diffuseOne_prev w h eR eG eB dv x y d o (hoffs o (List.mem_cons_self o t)) hx i hi

theorem ditherStep_prev (dist : RGB → RGB → ℚ) (pal : List RGB) (s : ℚ)
    (offs : List (ℤ × ℤ × ℕ)) (dv : ℚ) (w h x y : ℕ)
    (hoffs : ∀ o ∈ offs, CausalOffset o) (hx : x < w) (d : Buffer)
    (i : ℕ) (hi : i < (y * w + x) * 4) :
    ditherStep dist pal s offs dv w h x y d i = d i := by
  unfold ditherStep
  rw [foldl_diffuseOne_prev offs hoffs w h _ _ _ dv x y hx _ i (by omega)]
  rw [Function.update_noteq (by omega), Function.update_noteq (by omega),
    Function.update_noteq (by omega)]

theorem ditherStep_self (dist : RGB → RGB → ℚ) (pal : List RGB) (s : ℚ)
    (offs : List (ℤ × ℤ × ℕ)) (dv : ℚ) (w h x y : ℕ)
    (hoffs : ∀ o ∈ offs, CausalOffset o) (hx : x < w) (d : Buffer) :
    ditherStep dist pal s offs dv w h x y d ((y * w + x) * 4) =
      u8store ((findNearestColor dist (d ((y * w + x) * 4)) (d ((y * w + x) * 4 + 1))
        (d ((y * w + x) * 4 + 2)) pal).1 : ℚ) ∧
    ditherStep dist pal s offs dv w h x y d ((y * w + x) * 4 + 1) =
      u8store ((findNearestColor dist (d ((y * w + x) * 4)) (d ((y * w + x) * 4 + 1))
        (d ((y * w + x) * 4 + 2)) pal).2.1 : ℚ) ∧
    ditherStep dist pal s offs dv w h x y d ((y * w + x) * 4 + 2) =
      u8store ((findNearestColor dist (d ((y * w + x) * 4)) (d ((y * w + x) * 4 + 1))
        (d ((y * w + x) * 4 + 2)) pal).2.2 : ℚ) := by
  unfold ditherStep
  refine ⟨?_, ?_, ?_⟩
  · rw [foldl_diffuseOne_prev offs hoffs w h _ _ _ dv x y hx _ _ (by omega)]
    rw [Function.update_noteq (by omega), Function.update_noteq (by omega),
      Function.update_same]
  · rw [foldl_diffuseOne_prev offs hoffs w h _ _ _ dv x y hx _ _ (by omega)]
    rw [Function.update_noteq (by omega), Function.update_same]
  · rw [foldl_diffuseOne_prev offs hoffs w h _ _ _ dv x y hx _ _ (by omega)]
    rw [Function.update_same]

/-! ## The raster traversal order -/

theorem rasterPositions_map_lin (w h : ℕ) :
    (rasterPositions w h).map (fun p => p.2 * w + p.1) = List.range (h * w) := by
  induction h with
  | zero => simp [rasterPositions]
  | succ n ih =>
    unfold rasterPositions at ih ⊢
    rw [List.range_succ, List.flatMap_append, List.map_append, ih]
    rw [Nat.succ_mul, List.range_add]
    congr 1
    simp [List.map_map, Function.comp]

theorem rasterPositions_pairwise (w h : ℕ) :
    (rasterPositions w h).Pairwise (fun p q => p.2 * w + p.1 < q.2 * w + q.1) := by
  have h1 : ((rasterPositions w h).map (fun p => p.2 * w + p.1)).Pairwise (· < ·) := by
    rw [rasterPositions_map_lin]
    exact List.pairwise_lt_range (h * w)
  exact (List.pairwise_map.mp h1)

theorem rasterPositions_bounds (w h : ℕ) :
    ∀ p ∈ rasterPositions w h, p.1 < w ∧ p.2 < h := by
  intro p hp
  simp only [rasterPositions, List.mem_flatMap, List.mem_map, List.mem_range] at hp
  obtain ⟨y, hy, x, hx, rfl⟩ := hp
  exact ⟨hx, hy⟩

theorem mem_rasterPositions (w h x y : ℕ) (hx : x < w) (hy : y < h) :
    (x, y) ∈ rasterPositions w h := by
  simp only [rasterPositions, List.mem_flatMap, List.mem_map, List.mem_range]
  exact ⟨y, hy, x, hx, rfl⟩

theorem foldl_nested_eq_flatMap {α β γ : Type} (f : γ → α → β → γ)
    (rows : List β) (cols : List α) (d : γ) :
    rows.foldl (fun d y => cols.foldl (fun d x => f d x y) d) d =
      (rows.flatMap (fun y => cols.map (fun x => (x, y)))).foldl
        (fun d p => f d p.1 p.2) d := by
  induction rows generalizing d with
  | nil => rfl
  | cons y t ih =>
    simp only [List.foldl_cons, List.flatMap_cons, List.foldl_append, List.foldl_map]
    exact ih _

theorem ditherPass_eq_foldl (dist : RGB → RGB → ℚ) (pal : List RGB) (s : ℚ)
    (offs : List (ℤ × ℤ × ℕ)) (dv : ℚ) (w h : ℕ) (d : Buffer) :
    ditherPass dist pal s offs dv w h d =
      (rasterPositions w h).foldl
        (fun d p => ditherStep dist pal s offs dv w h p.1 p.2 d) d := by
  unfold ditherPass rasterPositions
  exact foldl_nested_eq_flatMap (fun d x y => ditherStep dist pal s offs dv w h x y d)
    (List.range h) (List.range w) d

/-! ## Palette closure of the raster pass -/

theorem foldl_ditherStep_preserves (dist : RGB → RGB → ℚ) (pal : List RGB) (s : ℚ)
    (offs : List (ℤ × ℤ × ℕ)) (dv : ℚ) (w h : ℕ)
    (hoffs : ∀ o ∈ offs, CausalOffset o) (m : ℕ) :
    ∀ (t : List (ℕ × ℕ)), (∀ r ∈ t, r.1 < w ∧ m < r.2 * w + r.1) →
      ∀ (d : Buffer) (i : ℕ), i < m * 4 + 4 →
        (t.foldl (fun d p => ditherStep dist pal s offs dv w h p.1 p.2 d) d) i = d i := by
  intro t
  induction t with
  | nil => intro _ d i _; rfl
  | cons r t ih =>
    intro hbd d i hi
    simp only [List.foldl_cons]
    have hr := hbd r (List.mem_cons_self r t)
    rw [ih (fun q hq => hbd q (List.mem_cons_of_mem _ hq)) _ i hi]
    exact ditherStep_prev dist pal s offs dv w h r.1 r.2 hoffs hr.1 d i (by omega)

theorem foldl_ditherStep_closure (dist : RGB → RGB → ℚ) (pal : List RGB) (s : ℚ)
    (offs : List (ℤ × ℤ × ℕ)) (dv : ℚ) (w h : ℕ)
    (hoffs : ∀ o ∈ offs, CausalOffset o) (hpal : pal ≠ [])
    (hle : ∀ c ∈ pal, c.1 ≤ 255 ∧ c.2.1 ≤ 255 ∧ c.2.2 ≤ 255) :
    ∀ (L : List (ℕ × ℕ)),
      L.Pairwise (fun p q => p.2 * w + p.1 < q.2 * w + q.1) →
      (∀ p ∈ L, p.1 < w ∧ p.2 < h) →
      ∀ (d : Buffer), ∀ p ∈ L,
        ((L.foldl (fun d p => ditherStep dist pal s offs dv w h p.1 p.2 d) d)
            ((p.2 * w + p.1) * 4),
         (L.foldl (fun d p => ditherStep dist pal s offs dv w h p.1 p.2 d) d)
            ((p.2 * w + p.1) * 4 + 1),
         (L.foldl (fun d p => ditherStep dist pal s offs dv w h p.1 p.2 d) d)
            ((p.2 * w + p.1) * 4 + 2)) ∈ pal := by
  intro L
  induction L with
  | nil => intro _ _ _ p hp; exact absurd hp (List.not_mem_nil p)
  | cons q t ih =>
    intro hpw hbd d p hp
    simp only [List.foldl_cons]
    rcases List.mem_cons.mp hp with rfl | hpt
    · -- p is the head: its triple is written by this step and preserved by the rest
      have hq := hbd p (List.mem_cons_self p t)
      have hpres := foldl_ditherStep_preserves dist pal s offs dv w h hoffs
        (p.2 * w + p.1) t
        (fun r hr => ⟨(hbd r (List.mem_cons_of_mem _ hr)).1,
          (List.pairwise_cons.mp hpw).1 r hr⟩)
        (ditherStep dist pal s offs dv w h p.1 p.2 d)
      have hself := ditherStep_self dist pal s offs dv w h p.1 p.2 hoffs hq.1 d
      have c := findNearestColor dist (d ((p.2 * w + p.1) * 4))
        (d ((p.2 * w + p.1) * 4 + 1)) (d ((p.2 * w + p.1) * 4 + 2)) pal
      have hmem : findNearestColor dist (d ((p.2 * w + p.1) * 4))
          (d ((p.2 * w + p.1) * 4 + 1)) (d ((p.2 * w + p.1) * 4 + 2)) pal ∈ pal :=
        findNearestColor_mem dist _ _ _ pal hpal
      have hcle := hle _ hmem
      rw [hpres _ (by omega), hpres _ (by omega), hpres _ (by omega),
        hself.1, hself.2.1, hself.2.2,
        u8store_natCast _ hcle.1, u8store_natCast _ hcle.2.1, u8store_natCast _ hcle.2.2]
      exact hmem
    · exact ih (List.pairwise_cons.mp hpw).2
        (fun r hr => hbd r (List.mem_cons_of_mem _ hr)) _ p hpt

theorem ditherPass_closure (dist : RGB → RGB → ℚ) (pal : List RGB) (s : ℚ)
    (offs : List (ℤ × ℤ × ℕ)) (dv : ℚ) (w h : ℕ) (d : Buffer)
    (hoffs : ∀ o ∈ offs, CausalOffset o) (hpal : pal ≠ [])
    (hle : ∀ c ∈ pal, c.1 ≤ 255 ∧ c.2.1 ≤ 255 ∧ c.2.2 ≤ 255)
    (x y : ℕ) (hx : x < w) (hy : y < h) :
    (ditherPass dist pal s offs dv w h d ((y * w + x) * 4),
     ditherPass dist pal s offs dv w h d ((y * w + x) * 4 + 1),
     ditherPass dist pal s offs dv w h d ((y * w + x) * 4 + 2)) ∈ pal := by
  rw [ditherPass_eq_foldl]
  exact foldl_ditherStep_closure dist pal s offs dv w h hoffs hpal hle
    (rasterPositions w h) (rasterPositions_pairwise w h)
    (rasterPositions_bounds w h) d (x, y) (mem_rasterPositions w h x y hx hy)

/-- C1 — Palette closure: for every input buffer, every non-empty palette
(whose channel values are representable bytes), every algorithm selector
and every strength and contrast, each pixel of the buffer returned by
`applyDithering` has its R, G, B channels exactly equal to one of the
palette's RGB triples: the quantized color written at a pixel comes from
the palette, and because every kernel offset is causal (`dy ≥ 0`, and
`dx > 0` when `dy = 0`), error diffusion only touches pixels not yet
visited, so a quantized pixel is never overwritten. -/
theorem C1_palette_closure (img : ImageData) (algorithm : String) (pal : List RGB)
    (dist : RGB → RGB → ℚ) (strength contrast : ℚ)
    (hpal : pal ≠ []) (hle : ∀ c ∈ pal, c.1 ≤ 255 ∧ c.2.1 ≤ 255 ∧ c.2.2 ≤ 255)
    (x y : ℕ) (hx : x < img.width) (hy : y < img.height) :
    ((applyDithering img algorithm pal dist strength contrast).data
        ((y * img.width + x) * 4),
     (applyDithering img algorithm pal dist strength contrast).data
        ((y * img.width + x) * 4 + 1),
     (applyDithering img algorithm pal dist strength contrast).data
        ((y * img.width + x) * 4 + 2)) ∈ pal := by
  simp only [applyDithering, floydSteinberg, atkinson, stucki, jarvis]
  split_ifs <;>
    exact ditherPass_closure dist pal strength _ _ img.width img.height _
      (by decide) hpal hle x y hx hy

theorem C1_palette_closure_witness :
    ((applyDithering ⟨1, 1, fun _ => 0⟩ "floyd-steinberg"
        [(0, 0, 0), (255, 255, 255)] (fun _ _ => 0) 1 1).data ((0 * 1 + 0) * 4),
     (applyDithering ⟨1, 1, fun _ => 0⟩ "floyd-steinberg"
        [(0, 0, 0), (255, 255, 255)] (fun _ _ => 0) 1 1).data ((0 * 1 + 0) * 4 + 1),
     (applyDithering ⟨1, 1, fun _ => 0⟩ "floyd-steinberg"
        [(0, 0, 0), (255, 255, 255)] (fun _ _ => 0) 1 1).data ((0 * 1 + 0) * 4 + 2)) ∈
      [((0 : ℕ), (0 : ℕ), (0 : ℕ)), (255, 255, 255)] :=
  C1_palette_closure ⟨1, 1, fun _ => 0⟩ "floyd-steinberg"
    [(0, 0, 0), (255, 255, 255)] (fun _ _ => 0) 1 1
    (by decide) (by decide) 0 0 (by decide) (by decide)

/-! ## Kernel weight sums (claim C4) -/

/-- The sum of the weights of a kernel offset table. -/
def kernelWeightSum (offs : List (ℤ × ℤ × ℕ)) : ℕ := (offs.map (fun o => o.2.2)).sum

/-- C4 counterexample — the claim "for every supported kernel the sum of
the listed weights equals the stated divisor" fails at the concrete
Atkinson kernel: its six weights of 1 sum to 6, not to its divisor 8. -/
theorem C4_weight_sum_counterexample :
    kernelWeightSum atkinsonOffsets ≠ atkinsonDivisor ∧
    kernelWeightSum atkinsonOffsets = 6 ∧ atkinsonDivisor = 8 := by decide

/-- C4 amended — Weight conservation holds for Floyd-Steinberg (7+3+5+1 =
16), Stucki (sum 42) and Jarvis-Judice-Ninke (sum 48); Atkinson's six unit
weights sum to 6 against its divisor 8, i.e. only 6/8 of the error is
distributed and the remainder is intentionally lost. -/
theorem C4_weight_sums :
    kernelWeightSum fsOffsets = fsDivisor ∧
    kernelWeightSum stuckiOffsets = stuckiDivisor ∧
    kernelWeightSum jarvisOffsets = jarvisDivisor ∧
    kernelWeightSum atkinsonOffsets = 6 ∧ atkinsonDivisor = 8 := by decide

/-! ## Unknown-selector handling (claim C5) -/

/-- C5 counterexample — at the concrete unknown selector
`"not-a-kernel"`, `applyDithering` does not fail: it silently returns the
very result of the `"floyd-steinberg"` selector (the `default` case of the
`switch`, dithering.ts lines 674-675). -/
theorem C5_unknown_selector_counterexample :
    applyDithering ⟨1, 1, fun _ => 0⟩ "not-a-kernel" [(0, 0, 0), (255, 255, 255)]
        (fun _ _ => 0) 1 1 =
      applyDithering ⟨1, 1, fun _ => 0⟩ "floyd-steinberg" [(0, 0, 0), (255, 255, 255)]
        (fun _ _ => 0) 1 1 := rfl

/-- C5 amended — for every algorithm selector that is not one of the four
defined kernel keys, `applyDithering` does not fail fast: it silently falls
back to the default kernel, behaving exactly as the `"floyd-steinberg"`
selector. -/
theorem C5_unknown_selector_fallback (img : ImageData) (algorithm : String)
    (pal : List RGB) (dist : RGB → RGB → ℚ) (strength contrast : ℚ)
    (h1 : algorithm ≠ "floyd-steinberg") (h2 : algorithm ≠ "atkinson")
    (h3 : algorithm ≠ "stucki") (h4 : algorithm ≠ "jarvis") :
    applyDithering img algorithm pal dist strength contrast =
      applyDithering img "floyd-steinberg" pal dist strength contrast := by
  simp [applyDithering, h1, h2, h3, h4]

theorem C5_unknown_selector_fallback_witness :
    applyDithering ⟨2, 2, fun _ => 7⟩ "bogus" [(0, 0, 0)] (fun _ _ => 1) 1 2 =
      applyDithering ⟨2, 2, fun _ => 7⟩ "floyd-steinberg" [(0, 0, 0)] (fun _ _ => 1) 1 2 :=
  C5_unknown_selector_fallback ⟨2, 2, fun _ => 7⟩ "bogus" [(0, 0, 0)] (fun _ _ => 1) 1 2
    (by decide) (by decide) (by decide) (by decide)

/-! ## The blue override in nearest-color matching (claim C9) -/

/-- The Prop form of the blue-entry condition. -/
def BlueEntry (c : RGB) : Prop := 200 < c.2.2 ∧ c.1 < 50 ∧ c.2.1 < 50

theorem isBlueEntry_iff (c : RGB) : isBlueEntry c = true ↔ BlueEntry c := by
  simp [isBlueEntry, BlueEntry, and_assoc]

/-- C9 — Blue override: for every input with `r < 50`, `g < 150`,
`b > 100`, if the palette contains an entry with blue channel > 200, red
channel < 50 and green channel < 50, `findNearestColor` returns the first
such entry (the palette being `pre ++ c :: post` with no blue entry in
`pre`), bypassing the Lab-distance computation entirely; and if no such
entry exists, matching proceeds by the Lab-distance loop as normal. -/
theorem C9_blue_override (dist : RGB → RGB → ℚ) (r g b : ℕ)
    (hr : r < 50) (hg : g < 150) (hb : 100 < b)
    (pre post : List RGB) (c : RGB)
    (hpre : ∀ e ∈ pre, ¬BlueEntry e) (hc : BlueEntry c) :
    findNearestColor dist r g b (pre ++ c :: post) = c ∧
    ∀ pal : List RGB, (∀ e ∈ pal, ¬BlueEntry e) →
      findNearestColor dist r g b pal = nearestLab dist r g b pal := by
  constructor
  · unfold findNearestColor
    rw [if_pos ⟨hr, hg, hb⟩]
    have hfind : (pre ++ c :: post).find? isBlueEntry = some c := by
      have hprenone : pre.find? isBlueEntry = none := by
        rw [List.find?_eq_none]
        intro e he
        simpa [isBlueEntry_iff] using hpre e he
      induction pre with
      | nil => simp [List.find?_cons, (isBlueEntry_iff c).mpr hc]
      | cons e t ih =>
        have he : isBlueEntry e = false := by
          simpa [List.find?_cons] using congrArg id
            (by
              rw [List.find?_eq_none] at hprenone
              have := hprenone e (List.mem_cons_self e t)
              simpa using Bool.eq_false_iff.mpr this)
        simp only [List.cons_append, List.find?_cons, he]
        exact ih (fun q hq => hpre q (List.mem_cons_of_mem _ hq))
          (by
            rw [List.find?_eq_none] at hprenone ⊢
            intro q hq
            exact hprenone q (List.mem_cons_of_mem _ hq))
    rw [hfind]
  · intro pal hnone
    unfold findNearestColor
    have hfind : pal.find? isBlueEntry = none := by
      rw [List.find?_eq_none]
      intro e he
      simpa [isBlueEntry_iff] using hnone e he
    rw [if_pos ⟨hr, hg, hb⟩, hfind]

theorem C9_blue_override_witness :
    findNearestColor (fun _ _ => 0) 10 10 200
        ([(0, 0, 0), (255, 255, 255)] ++ (0, 0, 255) :: []) = (0, 0, 255) ∧
    ∀ pal : List RGB, (∀ e ∈ pal, ¬BlueEntry e) →
      findNearestColor (fun _ _ => 0) 10 10 200 pal =
        nearestLab (fun _ _ => 0) 10 10 200 pal :=
  C9_blue_override (fun _ _ => 0) 10 10 200 (by decide) (by decide) (by decide)
    [(0, 0, 0), (255, 255, 255)] [] (0, 0, 255)
    (by intro e he; fin_cases he <;> simp [BlueEntry]) (by simp [BlueEntry])

/-! ## BMP byte layout (claim C2) -/

theorem bmpRowSize_ge (w : ℕ) : w * 3 ≤ bmpRowSize w := by
  unfold bmpRowSize; omega

theorem bmpHeader_length (img : ImageData) : (bmpHeader img).length = 54 := by
  simp [bmpHeader, u32le, u16le, i32le]

theorem bmpPixel_length (img : ImageData) (x y : ℕ) : (bmpPixel img x y).length = 3 := rfl

theorem bmpRow_length (img : ImageData) (y : ℕ) :
    (bmpRow img y).length = bmpRowSize img.width := by
  unfold bmpRow
  rw [List.length_append, List.length_replicate, List.length_flatMap]
  have hmap : (List.range img.width).map (List.length ∘ fun x => bmpPixel img x y) =
      List.replicate img.width 3 := by
    rw [List.eq_replicate_iff]
    constructor
    · simp
    · intro b hb
      simp only [List.mem_map, Function.comp] at hb
      obtain ⟨x, _, rfl⟩ := hb
      rfl
  rw [hmap, List.sum_replicate]
  have := bmpRowSize_ge img.width
  simp [smul_eq_mul]
  omega

/-- Indexing into a `flatMap` of fixed-length blocks. -/
theorem flatMap_fixed_getElem? {α β : Type} (f : β → List α) (len : ℕ) (b₀ : β) :
    ∀ (L : List β) (y j : ℕ), (∀ b ∈ L, (f b).length = len) → y < L.length →
      j < len → (L.flatMap f)[y * len + j]? = (f (L.getD y b₀))[j]? := by
  intro L
  induction L with
  | nil => intro y j _ hy _; exact absurd hy (by simp)
  | cons b t ih =>
    intro y j hlen hy hj
    cases y with
    | zero =>
      simp only [List.flatMap_cons, Nat.zero_mul, Nat.zero_add]
      rw [List.getElem?_append_left]
      · rfl
      · rw [hlen b (List.mem_cons_self b t)]; exact hj
    | succ y' =>
      simp only [List.flatMap_cons]
      rw [List.getElem?_append_right]
      · have harith : (y' + 1) * len + j - (f b).length = y' * len + j := by
          rw [hlen b (List.mem_cons_self b t)]
          ring_nf
          omega
        rw [harith]
        have := ih y' j (fun q hq => hlen q (List.mem_cons_of_mem _ hq))
          (by simpa using hy) hj
        simpa using this
      · rw [hlen b (List.mem_cons_self b t)]
        calc len ≤ (y' + 1) * len := by nlinarith
        _ ≤ (y' + 1) * len + j := Nat.le_add_right _ _

theorem range_getD (n y : ℕ) (hy : y < n) : (List.range n).getD y 0 = y := by
  rw [List.getD_eq_getElem?_getD, List.getElem?_eq_getElem (by simpa using hy)]
  simp

theorem imageDataToBmp_body_getD (img : ImageData) (y j : ℕ)
    (hy : y < img.height) (hj : j < bmpRowSize img.width) :
    (imageDataToBmp img).getD (54 + (y * bmpRowSize img.width + j)) 0 =
      (bmpRow img y).getD j 0 := by
  unfold imageDataToBmp
  rw [List.getD_eq_getElem?_getD, List.getElem?_append_right (by
    rw [bmpHeader_length]; omega)]
  rw [bmpHeader_length]
  have harith : 54 + (y * bmpRowSize img.width + j) - 54 =
      y * bmpRowSize img.width + j := by omega
  rw [harith]
  rw [flatMap_fixed_getElem? (bmpRow img) (bmpRowSize img.width) 0 (List.range img.height)
    y j (fun b _ => bmpRow_length img b) (by simpa using hy) hj]
  rw [range_getD img.height y hy]
  rw [List.getD_eq_getElem?_getD]

theorem bmpRowPixels_length (img : ImageData) (y : ℕ) :
    ((List.range img.width).flatMap (fun x => bmpPixel img x y)).length =
      img.width * 3 := by
  rw [List.length_flatMap]
  have hmap : (List.range img.width).map (List.length ∘ fun x => bmpPixel img x y) =
      List.replicate img.width 3 := by
    rw [List.eq_replicate_iff]
    refine ⟨by simp, ?_⟩
    intro b hb
    simp only [List.mem_map, Function.comp] at hb
    obtain ⟨x, _, rfl⟩ := hb
    rfl
  rw [hmap, List.sum_replicate, smul_eq_mul]

theorem bmpRow_pixel_getD (img : ImageData) (x y ch : ℕ)
    (hx : x < img.width) (hch : ch < 3) :
    (bmpRow img y).getD (x * 3 + ch) 0 =
      img.data ((y * img.width + x) * 4 + (2 - ch)) % 256 := by
  unfold bmpRow
  rw [List.getD_eq_getElem?_getD, List.getElem?_append_left (by
    rw [bmpRowPixels_length]; nlinarith)]
  rw [flatMap_fixed_getElem? (fun x => bmpPixel img x y) 3 0 (List.range img.width)
    x ch (fun b _ => rfl) (by simpa using hx) hch]
  rw [range_getD _ x hx]
  interval_cases ch
  · rfl
  · rfl
  · simp [bmpPixel]

theorem bmpRow_pad_getD (img : ImageData) (y j : ℕ) (hj : img.width * 3 ≤ j) :
    (bmpRow img y).getD j 0 = 0 := by
  unfold bmpRow
  rw [List.getD_eq_getElem?_getD, List.getElem?_append_right (by
    rw [bmpRowPixels_length]; exact hj)]
  rw [List.getElem?_replicate]
  split <;> rfl

theorem imageDataToBmp_length (img : ImageData) :
    (imageDataToBmp img).length = 54 + bmpRowSize img.width * img.height := by
  unfold imageDataToBmp
  rw [List.length_append, bmpHeader_length, List.length_flatMap]
  have hmap : (List.range img.height).map (List.length ∘ bmpRow img) =
      List.replicate img.height (bmpRowSize img.width) := by
    rw [List.eq_replicate_iff]
    refine ⟨by simp, ?_⟩
    intro b hb
    simp only [List.mem_map, Function.comp] at hb
    obtain ⟨y, _, rfl⟩ := hb
    exact bmpRow_length img y
  rw [hmap, List.sum_replicate, smul_eq_mul, Nat.mul_comm]

theorem imageDataToBmp_slice (img : ImageData) (n k : ℕ) (h : n + k ≤ 54) :
    ((imageDataToBmp img).drop n).take k = ((bmpHeader img).drop n).take k := by
  unfold imageDataToBmp
  rw [List.drop_append_eq_append_drop, List.take_append_eq_append_take]
  have h1 := bmpHeader_length img
  have h2 : n - (bmpHeader img).length = 0 := by omega
  have h3 : k - ((bmpHeader img).drop n).length = 0 := by
    rw [List.length_drop]; omega
  rw [h2, h3, List.take_zero, List.append_nil]

theorem ceil_div_four (n : ℕ) : ⌈((n : ℕ) : ℚ) / 4⌉ = (((n + 3) / 4 : ℕ) : ℤ) := by
  have hle : 4 * ((n + 3) / 4) ≤ n + 3 := by omega
  have hge : n ≤ 4 * ((n + 3) / 4) := by omega
  have hA : (4 : ℚ) * (((n + 3) / 4 : ℕ) : ℚ) ≤ (n : ℚ) + 3 := by
    have h := (Nat.cast_le (α := ℚ)).mpr hle
    rw [Nat.cast_mul, Nat.cast_add] at h
    simpa using h
  have hB : (n : ℚ) ≤ 4 * (((n + 3) / 4 : ℕ) : ℚ) := by
    have h := (Nat.cast_le (α := ℚ)).mpr hge
    rw [Nat.cast_mul] at h
    simpa using h
  rw [Int.ceil_eq_iff]
  constructor
  · show ((((n + 3) / 4 : ℕ) : ℤ) : ℚ) - 1 < (n : ℚ) / 4
    rw [Int.cast_natCast]
    linarith
  · show (n : ℚ) / 4 ≤ ((((n + 3) / 4 : ℕ) : ℤ) : ℚ)
    rw [Int.cast_natCast]
    linarith

theorem bmpRowSize_eq_ceil (w : ℕ) :
    (bmpRowSize w : ℤ) = ⌈((w * 3 : ℕ) : ℚ) / 4⌉ * 4 := by
  rw [ceil_div_four (w * 3)]
  simp [bmpRowSize]

/-- C2 — Encoder byte layout: for every pixel buffer of positive width and
height (with byte-valued data), `imageDataToBmp` produces
`54 + rowSize * H` bytes with `rowSize = ceil(W*3/4)*4`, beginning with the
magic `'B','M'`, little-endian file size at bytes 2-5, pixel-data offset 54
at bytes 10-13, header size 40 at bytes 14-17, width at bytes 18-21,
negative height (two's-complement signed) at bytes 22-25, planes 1 at
bytes 26-27, bits-per-pixel 24 at bytes 28-29, compression 0 at bytes
30-33, followed by rows in top-down order with channel order
Blue-Green-Red (alpha dropped) and each row zero-padded to a multiple of
4 bytes. -/
theorem C2_bmp_layout (img : ImageData) (hW : 0 < img.width) (hH : 0 < img.height)
    (hwf : ∀ i, img.data i ≤ 255) :
    (imageDataToBmp img).length = 54 + bmpRowSize img.width * img.height ∧
    (bmpRowSize img.width : ℤ) = ⌈((img.width * 3 : ℕ) : ℚ) / 4⌉ * 4 ∧
    (imageDataToBmp img).take 2 = [0x42, 0x4D] ∧
    ((imageDataToBmp img).drop 2).take 4 =
      u32le (54 + bmpRowSize img.width * img.height) ∧
    ((imageDataToBmp img).drop 10).take 4 = u32le 54 ∧
    ((imageDataToBmp img).drop 14).take 4 = u32le 40 ∧
    ((imageDataToBmp img).drop 18).take 4 = i32le (img.width : ℤ) ∧
    ((imageDataToBmp img).drop 22).take 4 = i32le (-(img.height : ℤ)) ∧
    ((imageDataToBmp img).drop 26).take 2 = u16le 1 ∧
    ((imageDataToBmp img).drop 28).take 2 = u16le 24 ∧
    ((imageDataToBmp img).drop 30).take 4 = u32le 0 ∧
    (∀ x y ch, x < img.width → y < img.height → ch < 3 →
      (imageDataToBmp img).getD (54 + (y * bmpRowSize img.width + (x * 3 + ch))) 0 =
        img.data ((y * img.width + x) * 4 + (2 - ch))) ∧
    (∀ y j, y < img.height → img.width * 3 ≤ j → j < bmpRowSize img.width →
      (imageDataToBmp img).getD (54 + (y * bmpRowSize img.width + j)) 0 = 0) := by
  refine ⟨imageDataToBmp_length img, bmpRowSize_eq_ceil img.width, ?_, ?_, ?_, ?_, ?_,
    ?_, ?_, ?_, ?_, ?_, ?_⟩
  · have h := imageDataToBmp_slice img 0 2 (by omega)
    simp only [List.drop_zero] at h
    rw [h]
    simp [bmpHeader, u32le, u16le, i32le]
  · rw [imageDataToBmp_slice img 2 4 (by omega)]
    simp [bmpHeader, u32le, u16le, i32le]
  · rw [imageDataToBmp_slice img 10 4 (by omega)]
    simp [bmpHeader, u32le, u16le, i32le]
  · rw [imageDataToBmp_slice img 14 4 (by omega)]
    simp [bmpHeader, u32le, u16le, i32le]
  · rw [imageDataToBmp_slice img 18 4 (by omega)]
    simp [bmpHeader, u32le, u16le, i32le]
  · rw [imageDataToBmp_slice img 22 4 (by omega)]
    simp [bmpHeader, u32le, u16le, i32le]
  · rw [imageDataToBmp_slice img 26 2 (by omega)]
    simp [bmpHeader, u32le, u16le, i32le]
  · rw [imageDataToBmp_slice img 28 2 (by omega)]
    simp [bmpHeader, u32le, u16le, i32le]
  · rw [imageDataToBmp_slice img 30 4 (by omega)]
    simp [bmpHeader, u32le, u16le, i32le]
  · intro x y ch hx hy hch
    have hb : x * 3 + ch < bmpRowSize img.width := by
      have h1 : x * 3 + ch < img.width * 3 := by nlinarith
      have h2 := bmpRowSize_ge img.width
      omega
    rw [imageDataToBmp_body_getD img y (x * 3 + ch) hy hb,
      bmpRow_pixel_getD img x y ch hx hch]
    exact Nat.mod_eq_of_lt (by have := hwf ((y * img.width + x) * 4 + (2 - ch)); omega)
  · intro y j hy hj1 hj2
    rw [imageDataToBmp_body_getD img y j hy hj2, bmpRow_pad_getD img y j hj1]

theorem C2_bmp_layout_witness :
    (imageDataToBmp ⟨1, 1, fun _ => 0⟩).length = 54 + bmpRowSize 1 * 1 ∧
    (imageDataToBmp ⟨1, 1, fun _ => 0⟩).take 2 = [0x42, 0x4D] := by
  have h := C2_bmp_layout ⟨1, 1, fun _ => 0⟩ (by decide) (by decide)
    (fun _ => Nat.zero_le 255)
  exact ⟨h.1, h.2.2.1⟩

/-! ## Lanczos sample support (claim C6) and weight normalization (C7) -/

theorem srcCoordQ_620 : srcCoordQ 6 2 0 = 1 := by
  unfold srcCoordQ; norm_num

theorem lanczosFloor_620 : lanczosFloor 6 2 0 = 1 := by
  unfold lanczosFloor
  rw [srcCoordQ_620, Int.floor_one]

/-- C6 counterexample — at source size 6, destination size 2, destination
coordinate 0 the source coordinate is 1, and the gathered range before
edge clipping runs from `floor - 2` up to `floor + 3 = 4`: the gathered
index 4 lies at distance 3 > 2 from the floor, refuting "the contributing
indices lie within ±(a-1) = ±2 of the floor". -/
theorem C6_support_counterexample :
    lanczosLo 6 2 0 ≤ 4 ∧ (4 : ℤ) ≤ lanczosHi 6 2 0 ∧
    2 < ((4 : ℤ) - lanczosFloor 6 2 0).natAbs := by
  refine ⟨?_, ?_, ?_⟩ <;>
    simp only [lanczosLo, lanczosHi, lanczosFloor_620] <;> decide

/-- C6 amended — Lanczos sample support: for every destination coordinate,
the source sample indices gathered into the weighted sum before edge
clipping lie within `[floor(srcCoord) - (a-1), floor(srcCoord) + a]`, i.e.
between 2 below and 3 above the floor (`a = 3`), where
`srcCoord = (dstCoord + 0.5) * (srcSize/dstSize) - 0.5`. -/
theorem C6_support_bounds (srcSize destSize dstCoord : ℕ) (i : ℤ)
    (h1 : lanczosLo srcSize destSize dstCoord ≤ i)
    (h2 : i ≤ lanczosHi srcSize destSize dstCoord) :
    -(3 - 1) ≤ i - lanczosFloor srcSize destSize dstCoord ∧
      i - lanczosFloor srcSize destSize dstCoord ≤ 3 := by
  unfold lanczosLo at h1
  unfold lanczosHi at h2
  omega

theorem C6_support_bounds_witness :
    -(3 - 1) ≤ (4 : ℤ) - lanczosFloor 6 2 0 ∧ (4 : ℤ) - lanczosFloor 6 2 0 ≤ 3 :=
  C6_support_bounds 6 2 0 4
    (by simp only [lanczosLo, lanczosFloor_620]; decide)
    (by simp only [lanczosHi, lanczosFloor_620]; decide)

theorem sum_map_div (l : List ℚ) (s : ℚ) :
    (l.map (fun w => w / s)).sum = l.sum / s := by
  induction l with
  | nil => simp
  | cons a t ih => simp [ih, add_div]

/-- C7 — Lanczos weight normalization: for every destination coordinate and
every kernel function, after the normalization step the applied
(edge-clipped) source weights along an axis sum to exactly 1, provided the
pre-normalization weight sum is nonzero; both the horizontal and the
vertical pass of `lanczosResample` use exactly this computation
(`axisWeights`), including at image edges where the gathered range is
clipped. -/
theorem C7_lanczos_normalization (k : ℚ → ℚ) (srcSize destSize dstCoord : ℕ)
    (h : (axisWeightsRaw k srcSize destSize dstCoord).sum ≠ 0) :
    (normalizeWeights (axisWeightsRaw k srcSize destSize dstCoord)).sum = 1 := by
  unfold normalizeWeights
  rw [sum_map_div, div_self h]

theorem srcCoordQ_220 : srcCoordQ 2 2 0 = 0 := by
  unfold srcCoordQ; norm_num

theorem axisWeightsRaw_one_220 : axisWeightsRaw (fun _ => 1) 2 2 0 = [1, 1] := by
  have h0 : lanczosFloor 2 2 0 = 0 := by
    unfold lanczosFloor
    rw [srcCoordQ_220, Int.floor_zero]
  unfold axisWeightsRaw axisIndices lanczosStart lanczosEnd lanczosLo lanczosHi
  rw [h0]
  rfl

theorem C7_lanczos_normalization_witness :
    (normalizeWeights (axisWeightsRaw (fun _ => 1) 2 2 0)).sum = 1 :=
  C7_lanczos_normalization (fun _ => 1) 2 2 0
    (by rw [axisWeightsRaw_one_220]; norm_num)

/-! ## Determinism (claim C3)

In the shallow embedding every function is trivially a function of its
arguments; the substantive content of determinism is that the encoded
output depends on nothing but the pixel bytes of the input buffer (up to
its extent `4*w*h`), its dimensions, and the configuration — two physically
distinct input arrays holding the same bytes yield byte-identical encoded
output. -/

/-- Two buffers agree below index `n`. -/
def AgreeBelow (n : ℕ) (d₁ d₂ : Buffer) : Prop := ∀ i < n, d₁ i = d₂ i

theorem agreeBelow_update (n : ℕ) (d₁ d₂ : Buffer) (j : ℕ) (v : ℕ)
    (hag : AgreeBelow n d₁ d₂) :
    AgreeBelow n (Function.update d₁ j v) (Function.update d₂ j v) := by
  intro i hi
  rcases eq_or_ne i j with rfl | hne
  · rw [Function.update_same, Function.update_same]
  · rw [Function.update_noteq hne, Function.update_noteq hne]
    exact hag i hi

theorem pix_lt (a b w h : ℕ) (ha : a < h) (hb : b < w) : a * w + b < w * h := by
  calc a * w + b < a * w + w := by omega
  _ = (a + 1) * w := by ring
  _ ≤ h * w := Nat.mul_le_mul_right w ha
  _ = w * h := Nat.mul_comm h w

theorem diffuseOne_congr (w h : ℕ) (eR eG eB dv : ℚ) (x y : ℕ)
    (d₁ d₂ : Buffer) (o : ℤ × ℤ × ℕ) (hag : AgreeBelow (4 * (w * h)) d₁ d₂) :
    AgreeBelow (4 * (w * h)) (diffuseOne w h eR eG eB dv x y d₁ o)
      (diffuseOne w h eR eG eB dv x y d₂ o) := by
  simp only [diffuseOne]
  split
  · next hb =>
    obtain ⟨hnx0, hnxw, hny0, hnyh⟩ := hb
    have hq : ((y : ℤ) + o.2.1).toNat * w + ((x : ℤ) + o.1).toNat < w * h := by
      apply pix_lt <;> omega
    have e0 := hag ((((y : ℤ) + o.2.1).toNat * w + ((x : ℤ) + o.1).toNat) * 4)
      (by omega)
    rw [e0]
    have hA := agreeBelow_update (4 * (w * h)) d₁ d₂
      ((((y : ℤ) + o.2.1).toNat * w + ((x : ℤ) + o.1).toNat) * 4)
      (u8store (min 255 (max 0
        ((d₂ ((((y : ℤ) + o.2.1).toNat * w + ((x : ℤ) + o.1).toNat) * 4) : ℚ) +
          eR * (o.2.2 : ℚ) / dv)))) hag
    have e1 := hA ((((y : ℤ) + o.2.1).toNat * w + ((x : ℤ) + o.1).toNat) * 4 + 1)
      (by omega)
    rw [e1]
    have hB := agreeBelow_update (4 * (w * h)) _ _
      ((((y : ℤ) + o.2.1).toNat * w + ((x : ℤ) + o.1).toNat) * 4 + 1)
      (u8store (min 255 (max 0
        ((Function.update d₂
            ((((y : ℤ) + o.2.1).toNat * w + ((x : ℤ) + o.1).toNat) * 4)
            (u8store (min 255 (max 0
              ((d₂ ((((y : ℤ) + o.2.1).toNat * w + ((x : ℤ) + o.1).toNat) * 4) : ℚ) +
                eR * (o.2.2 : ℚ) / dv))))
            ((((y : ℤ) + o.2.1).toNat * w + ((x : ℤ) + o.1).toNat) * 4 + 1) : ℚ) +
          eG * (o.2.2 : ℚ) / dv)))) hA
    have e2 := hB ((((y : ℤ) + o.2.1).toNat * w + ((x : ℤ) + o.1).toNat) * 4 + 2)
      (by omega)
    rw [e2]
    exact agreeBelow_update (4 * (w * h)) _ _ _ _ hB
  · exact hag

theorem foldl_diffuseOne_congr (offs : List (ℤ × ℤ × ℕ)) (w h : ℕ)
    (eR eG eB dv : ℚ) (x y : ℕ) :
    ∀ (d₁ d₂ : Buffer), AgreeBelow (4 * (w * h)) d₁ d₂ →
      AgreeBelow (4 * (w * h)) (offs.foldl (diffuseOne w h eR eG eB dv x y) d₁)
        (offs.foldl (diffuseOne w h eR eG eB dv x y) d₂) := by
  induction offs with
  | nil => intro d₁ d₂ hag; exact hag
  | cons o t ih =>
    intro d₁ d₂ hag
    simp only [List.foldl_cons]
    exact ih _ _ (diffuseOne_congr w h eR eG eB dv x y d₁ d₂ o hag)

theorem ditherStep_congr (dist : RGB → RGB → ℚ) (pal : List RGB) (s : ℚ)
    (offs : List (ℤ × ℤ × ℕ)) (dv : ℚ) (w h x y : ℕ) (hx : x < w) (hy : y < h)
    (d₁ d₂ : Buffer) (hag : AgreeBelow (4 * (w * h)) d₁ d₂) :
    AgreeBelow (4 * (w * h)) (ditherStep dist pal s offs dv w h x y d₁)
      (ditherStep dist pal s offs dv w h x y d₂) := by
  have hp : y * w + x < w * h := pix_lt y x w h hy hx
  have h0 := hag ((y * w + x) * 4) (by omega)
  have h1 := hag ((y * w + x) * 4 + 1) (by omega)
  have h2 := hag ((y * w + x) * 4 + 2) (by omega)
  simp only [ditherStep]
  rw [h0, h1, h2]
  exact foldl_diffuseOne_congr offs w h _ _ _ dv x y _ _
    (agreeBelow_update _ _ _ _ _ (agreeBelow_update _ _ _ _ _
      (agreeBelow_update _ _ _ _ _ hag)))

theorem foldl_ditherStep_congr (dist : RGB → RGB → ℚ) (pal : List RGB) (s : ℚ)
    (offs : List (ℤ × ℤ × ℕ)) (dv : ℚ) (w h : ℕ) :
    ∀ (L : List (ℕ × ℕ)), (∀ p ∈ L, p.1 < w ∧ p.2 < h) →
      ∀ (d₁ d₂ : Buffer), AgreeBelow (4 * (w * h)) d₁ d₂ →
        AgreeBelow (4 * (w * h))
          (L.foldl (fun d p => ditherStep dist pal s offs dv w h p.1 p.2 d) d₁)
          (L.foldl (fun d p => ditherStep dist pal s offs dv w h p.1 p.2 d) d₂) := by
  intro L
  induction L with
  | nil => intro _ d₁ d₂ hag; exact hag
  | cons q t ih =>
    intro hbd d₁ d₂ hag
    simp only [List.foldl_cons]
    have hq := hbd q (List.mem_cons_self q t)
    exact ih (fun r hr => hbd r (List.mem_cons_of_mem _ hr)) _ _
      (ditherStep_congr dist pal s offs dv w h q.1 q.2 hq.1 hq.2 d₁ d₂ hag)

theorem ditherPass_congr (dist : RGB → RGB → ℚ) (pal : List RGB) (s : ℚ)
    (offs : List (ℤ × ℤ × ℕ)) (dv : ℚ) (w h : ℕ) (d₁ d₂ : Buffer)
    (hag : AgreeBelow (4 * (w * h)) d₁ d₂) :
    AgreeBelow (4 * (w * h)) (ditherPass dist pal s offs dv w h d₁)
      (ditherPass dist pal s offs dv w h d₂) := by
  rw [ditherPass_eq_foldl, ditherPass_eq_foldl]
  exact foldl_ditherStep_congr dist pal s offs dv w h (rasterPositions w h)
    (rasterPositions_bounds w h) d₁ d₂ hag

theorem contrastPixel_congr (factor : ℚ) (w h p : ℕ) (hp : p < w * h)
    (d₁ d₂ : Buffer) (hag : AgreeBelow (4 * (w * h)) d₁ d₂) :
    AgreeBelow (4 * (w * h)) (contrastPixel factor d₁ p) (contrastPixel factor d₂ p) := by
  have h0 := hag (p * 4) (by omega)
  simp only [contrastPixel]
  rw [h0]
  have hA := agreeBelow_update (4 * (w * h)) d₁ d₂ (p * 4)
    (u8store (min 255 (max 0 (factor * ((d₂ (p * 4) : ℚ) - 128) + 128)))) hag
  have h1 := hA (p * 4 + 1) (by omega)
  rw [h1]
  have hB := agreeBelow_update (4 * (w * h)) _ _ (p * 4 + 1)
    (u8store (min 255 (max 0 (factor *
      ((Function.update d₂ (p * 4)
          (u8store (min 255 (max 0 (factor * ((d₂ (p * 4) : ℚ) - 128) + 128))))
          (p * 4 + 1) : ℚ) - 128) + 128)))) hA
  have h2 := hB (p * 4 + 2) (by omega)
  rw [h2]
  exact agreeBelow_update _ _ _ _ _ hB

theorem applyContrast_congr (w h : ℕ) (c : ℚ) (d₁ d₂ : Buffer)
    (hag : AgreeBelow (4 * (w * h)) d₁ d₂) :
    AgreeBelow (4 * (w * h)) (applyContrast w h c d₁) (applyContrast w h c d₂) := by
  unfold applyContrast
  have hgen : ∀ (L : List ℕ), (∀ p ∈ L, p < w * h) →
      ∀ (e₁ e₂ : Buffer), AgreeBelow (4 * (w * h)) e₁ e₂ →
        AgreeBelow (4 * (w * h)) (L.foldl (contrastPixel (contrastFactor c)) e₁)
          (L.foldl (contrastPixel (contrastFactor c)) e₂) := by
    intro L
    induction L with
    | nil => intro _ e₁ e₂ hg; exact hg
    | cons p t ih =>
      intro hbd e₁ e₂ hg
      simp only [List.foldl_cons]
      exact ih (fun r hr => hbd r (List.mem_cons_of_mem _ hr)) _ _
        (contrastPixel_congr (contrastFactor c) w h p
          (hbd p (List.mem_cons_self p t)) e₁ e₂ hg)
  exact hgen (List.range (w * h)) (fun p hp => List.mem_range.mp hp) d₁ d₂ hag

theorem applyDithering_congr (w h : ℕ) (d₁ d₂ : Buffer) (alg : String)
    (pal : List RGB) (dist : RGB → RGB → ℚ) (s c : ℚ)
    (hag : AgreeBelow (4 * (w * h)) d₁ d₂) :
    AgreeBelow (4 * (w * h))
      ((applyDithering ⟨w, h, d₁⟩ alg pal dist s c).data)
      ((applyDithering ⟨w, h, d₂⟩ alg pal dist s c).data) := by
  simp only [applyDithering, floydSteinberg, atkinson, stucki, jarvis]
  split_ifs <;>
    first
    | exact ditherPass_congr dist pal s _ _ w h _ _
        (applyContrast_congr w h (c - 1) d₁ d₂ hag)
    | exact ditherPass_congr dist pal s _ _ w h _ _ hag

theorem applyDithering_shape (img : ImageData) (alg : String) (pal : List RGB)
    (dist : RGB → RGB → ℚ) (s c : ℚ) :
    applyDithering img alg pal dist s c =
      ⟨img.width, img.height, (applyDithering img alg pal dist s c).data⟩ := by
  simp only [applyDithering, floydSteinberg, atkinson, stucki, jarvis]
  split_ifs <;> rfl

theorem flatMap_congr_mem {α β : Type} (L : List α) (f g : α → List β)
    (hfg : ∀ a ∈ L, f a = g a) : L.flatMap f = L.flatMap g := by
  induction L with
  | nil => rfl
  | cons a t ih =>
    simp only [List.flatMap_cons]
    rw [hfg a (List.mem_cons_self a t),
      ih (fun b hb => hfg b (List.mem_cons_of_mem _ hb))]

theorem imageDataToBmp_congr (w h : ℕ) (d₁ d₂ : Buffer)
    (hag : AgreeBelow (4 * (w * h)) d₁ d₂) :
    imageDataToBmp ⟨w, h, d₁⟩ = imageDataToBmp ⟨w, h, d₂⟩ := by
  unfold imageDataToBmp
  have hhdr : bmpHeader ⟨w, h, d₁⟩ = bmpHeader ⟨w, h, d₂⟩ := rfl
  rw [hhdr]
  congr 1
  apply flatMap_congr_mem
  intro y hy
  unfold bmpRow
  congr 1
  apply flatMap_congr_mem
  intro x hx
  have hp : y * w + x < w * h :=
    pix_lt y x w h (List.mem_range.mp hy) (List.mem_range.mp hx)
  unfold bmpPixel
  dsimp only
  rw [hag ((y * w + x) * 4) (by omega), hag ((y * w + x) * 4 + 1) (by omega),
    hag ((y * w + x) * 4 + 2) (by omega)]

/-- C3 — Determinism: for a fixed input pixel buffer (two physically
distinct buffers holding the same bytes over the image extent), fixed
palette key, algorithm selector, strength and contrast, `applyDithering`
followed by `imageDataToBmp` yields byte-identical encoded output: nothing
but the listed inputs influences the result (no randomness, timestamps or
ambient state exist in the model, and the proof shows the output depends
only on the byte contents). -/
theorem C3_determinism (img₁ img₂ : ImageData) (alg key : String)
    (dist : RGB → RGB → ℚ) (s c : ℚ)
    (hw : img₁.width = img₂.width) (hh : img₁.height = img₂.height)
    (hd : ∀ i < 4 * (img₁.width * img₁.height), img₁.data i = img₂.data i) :
    (applyDitheringByKey img₁ alg key dist s c).map imageDataToBmp =
      (applyDitheringByKey img₂ alg key dist s c).map imageDataToBmp := by
  obtain ⟨w₁, h₁, d₁⟩ := img₁
  obtain ⟨w₂, h₂, d₂⟩ := img₂
  simp only at hw hh hd
  subst hw
  subst hh
  unfold applyDitheringByKey
  cases COLOR_PALETTES.lookup key with
  | none => rfl
  | some pal =>
    have key : imageDataToBmp (applyDithering ⟨w₁, h₁, d₁⟩ alg pal dist s c) =
        imageDataToBmp (applyDithering ⟨w₁, h₁, d₂⟩ alg pal dist s c) := by
      rw [applyDithering_shape ⟨w₁, h₁, d₁⟩ alg pal dist s c,
        applyDithering_shape ⟨w₁, h₁, d₂⟩ alg pal dist s c]
      exact imageDataToBmp_congr w₁ h₁ _ _
        (applyDithering_congr w₁ h₁ d₁ d₂ alg pal dist s c hd)
    simp only [Option.map_some', key]

theorem C3_determinism_witness :
    (applyDitheringByKey ⟨1, 1, fun _ => 0⟩ "floyd-steinberg" "bw"
        (fun _ _ => 0) 1 1).map imageDataToBmp =
      (applyDitheringByKey ⟨1, 1, fun i => i * 0⟩ "floyd-steinberg" "bw"
        (fun _ _ => 0) 1 1).map imageDataToBmp :=
  C3_determinism ⟨1, 1, fun _ => 0⟩ ⟨1, 1, fun i => i * 0⟩ "floyd-steinberg" "bw"
    (fun _ _ => 0) 1 1 rfl rfl (fun i _ => by simp)

/-! ## Input-buffer preservation (claim C10) -/

theorem list_getD_append_left (L M : List Buffer) (i : ℕ) (hi : i < L.length) :
    (L ++ M).getD i zeroBuf = L.getD i zeroBuf := by
  rw [List.getD_eq_getElem?_getD, List.getD_eq_getElem?_getD,
    List.getElem?_append_left hi]

theorem list_getD_set_ne (L : List Buffer) (j : ℕ) (v : Buffer) (i : ℕ) (h : i ≠ j) :
    (L.set j v).getD i zeroBuf = L.getD i zeroBuf := by
  rw [List.getD_eq_getElem?_getD, List.getD_eq_getElem?_getD,
    List.getElem?_set_ne (Ne.symm h)]

theorem heapRun_length {α : Type} (j : ℕ) (step : Buffer → α → Buffer) (l : List α) :
    ∀ hp : List Buffer, (heapRun j step l hp).length = hp.length := by
  induction l with
  | nil => intro hp; rfl
  | cons a t ih =>
    intro hp
    simp only [heapRun, List.foldl_cons] at ih ⊢
    rw [ih, List.length_set]

theorem heapRun_getD_ne {α : Type} (j : ℕ) (step : Buffer → α → Buffer) (l : List α) :
    ∀ (hp : List Buffer) (i : ℕ), i ≠ j →
      (heapRun j step l hp).getD i zeroBuf = hp.getD i zeroBuf := by
  induction l with
  | nil => intro hp i _; rfl
  | cons a t ih =>
    intro hp i hne
    simp only [heapRun, List.foldl_cons] at ih ⊢
    rw [ih _ i hne, list_getD_set_ne _ j _ i hne]

/-- C10 — Input buffer preservation: in the heap-level model of
`applyDithering` (where `new Uint8ClampedArray(imageData.data)` allocates a
fresh buffer and every in-place write of the contrast pre-pass and of the
dithering raster loop targets only the freshly allocated buffers), every
buffer that existed before the call — in particular the caller's input
buffer at `idx` — holds exactly its original bytes when the call returns,
and the returned buffer lives at a freshly allocated slot beyond all
pre-existing buffers. -/
theorem C10_input_preservation (hp : List Buffer) (idx : ℕ) (alg : String)
    (pal : List RGB) (dist : RGB → RGB → ℚ) (s c : ℚ) (w h : ℕ)
    (i : ℕ) (hi : i < hp.length) :
    (applyDitheringHeap hp idx alg pal dist s c w h).1.getD i zeroBuf =
      hp.getD i zeroBuf ∧
    hp.length < (applyDitheringHeap hp idx alg pal dist s c w h).2 := by
  simp only [applyDitheringHeap]
  by_cases hc : c ≠ 1
  · simp only [if_pos hc]
    have hlen1 : (hp ++ [hp.getD idx zeroBuf]).length = hp.length + 1 := by
      simp
    have hlen2 : (heapRun hp.length
        (contrastPixel (contrastFactor (c - 1))) (List.range (w * h))
        (hp ++ [hp.getD idx zeroBuf])).length = hp.length + 1 := by
      rw [heapRun_length, hlen1]
    constructor
    · rw [heapRun_getD_ne _ _ _ _ i (by omega),
        list_getD_append_left _ _ i (by omega),
        heapRun_getD_ne _ _ _ _ i (by omega),
        list_getD_append_left _ _ i hi]
    · rw [hlen2]
      omega
  · simp only [if_neg hc]
    have hlen1 : (hp ++ [hp.getD idx zeroBuf]).length = hp.length + 1 := by
      simp
    constructor
    · rw [heapRun_getD_ne _ _ _ _ i (by omega),
        list_getD_append_left _ _ i (by omega),
        list_getD_append_left _ _ i hi]
    · rw [hlen1]
      omega

theorem C10_input_preservation_witness :
    (applyDitheringHeap [fun _ => 9] 0 "floyd-steinberg" [(0, 0, 0)]
        (fun _ _ => 0) 1 1 1 1).1.getD 0 zeroBuf =
      ([fun _ => 9] : List Buffer).getD 0 zeroBuf ∧
    ([fun _ => 9] : List Buffer).length <
      (applyDitheringHeap [fun _ => 9] 0 "floyd-steinberg" [(0, 0, 0)]
        (fun _ _ => 0) 1 1 1 1).2 :=
  C10_input_preservation ([fun _ => 9] : List Buffer) 0 "floyd-steinberg" [(0, 0, 0)]
    (fun _ _ => 0) 1 1 1 1 0 (by decide)

/-! ## Resample dimension invariant (claim C8) -/

/-- C8 counterexample — a positive-dimension source (1×1000) scaled in fit
mode into a positive 100×100 target makes the fitted width round to 0
(`Math.round(100 * (1/1000)) = 0`), sending a zero destination width into
`lanczosResample`, whose `new ImageData(0, 100)` throws
(`IndexSizeError`, modelled by `none`): no buffer of the requested target
size is returned. -/
theorem C8_counterexample :
    scaleImageWithCrop ⟨1, 1000, fun _ => 0⟩ 100 100 (255, 255, 255) CropMode.fit
      (0, 0) (fun _ => 0) (fun _ => 0) = none := by
  unfold scaleImageWithCrop
  rw [if_neg (by norm_num)]
  have hm : CropMode.fit ≠ CropMode.fill := by decide
  norm_num [jround, lanczosResample, min_lt_iff, hm]

/-- C8 amended — Dimension invariant on success: for every source buffer,
target size, mode, offset, background, kernel function and browser-scaling
contents, whenever `scaleImageWithCrop` returns a buffer at all (it can
throw for extreme aspect ratios, where a fitted dimension rounds to zero,
and for zero-sized sources or targets), the returned buffer has exactly
the requested target width and height. -/
theorem C8_dimension_invariant (src : ImageData) (tW tH : ℕ) (bg : RGB)
    (mode : CropMode) (off : ℚ × ℚ) (k : ℚ → ℚ) (sm : Buffer)
    (hsome : (scaleImageWithCrop src tW tH bg mode off k sm).isSome = true) :
    (scaleImageWithCrop src tW tH bg mode off k sm).map ImageData.width = some tW ∧
    (scaleImageWithCrop src tW tH bg mode off k sm).map ImageData.height = some tH := by
  obtain ⟨out, hout⟩ := Option.isSome_iff_exists.mp hsome
  suffices hdim : out.width = tW ∧ out.height = tH by
    rw [hout]
    simp [Option.map_some', hdim.1, hdim.2]
  unfold scaleImageWithCrop at hout
  split at hout
  · exact absurd hout (by simp)
  · dsimp only at hout
    split at hout
    · exact absurd hout (by simp)
    · split at hout
      · exact absurd hout (by simp)
      · have h := Option.some.inj hout
        subst h
        exact ⟨rfl, rfl⟩

theorem C8_dimension_invariant_witness :
    (scaleImageWithCrop ⟨2, 2, fun _ => 0⟩ 2 2 (255, 255, 255) CropMode.fit
        (0, 0) (fun _ => 0) (fun _ => 0)).map ImageData.width = some 2 ∧
    (scaleImageWithCrop ⟨2, 2, fun _ => 0⟩ 2 2 (255, 255, 255) CropMode.fit
        (0, 0) (fun _ => 0) (fun _ => 0)).map ImageData.height = some 2 :=
  C8_dimension_invariant ⟨2, 2, fun _ => 0⟩ 2 2 (255, 255, 255) CropMode.fit
    (0, 0) (fun _ => 0) (fun _ => 0)
    (by
      unfold scaleImageWithCrop
      rw [if_neg (by norm_num)]
      have hm : CropMode.fit ≠ CropMode.fill := by decide
      norm_num [jround, lanczosResample, min_lt_iff, hm]
      split
      · next heq => exact absurd heq (by split <;> simp)
      · rfl)
